import Mathlib

set_option maxRecDepth 100000

/- Formal model of the alpha-beta smoothing filter of
   actors/util/smoothing/alpha_beta_filter.go: the Q.128 fixed-point
   estimator (NextEstimate), the extrapolated cumulative sum of a ratio
   of two estimates, and the fixed-point natural logarithm.
   Q.128 values are arbitrary-precision integers denoting (integer / 2^128). -/

namespace Smoothing

/-- Binary point position of the Q.128 fixed-point format (`math.Precision`).
Modelled from the spec: the repository's `math` util package is not among the
sources here; the spec fixes the representation as Q.128. -/
def precision : Nat := 128

/-- Left point-shift helper `big.Lsh`.
Modelled from the spec: the repository's `big` wrapper package is not among
the sources here; `Lsh a n` is exact multiplication by `2^n`
(Go `math/big` left shift, exact for negative values as well). -/
def Lsh (a : Int) (n : Nat) : Int := a * 2 ^ n

/-- Right point-shift helper `big.Rsh`.
Modelled from the spec: the repository's `big` wrapper package is not among
the sources here; `Rsh a n` is the arithmetic right shift of Go `math/big`,
i.e. floor division by `2^n`. -/
def Rsh (a : Int) (n : Nat) : Int := Int.fdiv a (2 ^ n)

/-- Division helper `big.Div`.
Modelled from the spec: the repository's `big` wrapper package is not among
the sources here; it delegates to Go `math/big` `Div`, which is Euclidean
division (remainder in `[0, |b|)`), exactly Lean's `Int.ediv`. -/
def bigDiv (a b : Int) : Int := a / b

/-- Coefficients (highest degree first) of the numerator polynomial of the
rational approximation of ln on [1,2), Q.128 protocol constants
(`lnNumCoef` in the source's `init`). -/
def lnNumCoef : List Int :=
  [ 261417938209272870992496419296200268025,
    7266615505142943436908456158054846846897,
    32458783941900493142649393804518050491988,
    17078670566130897220338060387082146864806,
    -35150353308172866634071793531642638290419,
    -20351202052858059355702509232125230498980,
    -1563932590352680681114104005183375350999 ]

/-- Coefficients (highest degree first) of the denominator polynomial of the
rational approximation of ln on [1,2), Q.128 protocol constants
(`lnDenomCoef` in the source's `init`). -/
def lnDenomCoef : List Int :=
  [ 49928077726659937662124949977867279384,
    2508163877009111928787629628566491583994,
    21757751789594546643737445330202599887121,
    53400635271583923415775576342898617051826,
    41248834748603606604000911015235164348839,
    9015227820322455780436733526367238305537,
    340282366920938463463374607431768211456 ]

/-- Q.128 value of ln(2), protocol constant (`ln2` in the source's `init`). -/
def ln2 : Int := 235865763225513294137944142764154484399

/-- Q.128 value of the default alpha gain (`DefaultAlpha`). -/
def DefaultAlpha : Int := 55806300000000000000000000000000000

/-- Q.128 value of the default beta gain (`DefaultBeta`). -/
def DefaultBeta : Int := 39132500000000000000000000000000000

/-- Q.128 branch threshold of `ExtrapolatedCumSumOfRatio`
(`ExtrapolatedCumSumRatioEpsilon` in the source's `init`, the Q.128 value
of 2^-50). -/
def ExtrapolatedCumSumRatioEpsilon : Int := 302231454903657293676544

/-- Initial position of a fresh filter (`initialPosition`, zero). -/
def initialPosition : Int := 0

/-- Initial velocity of a fresh filter (`initialVelocity`, zero). -/
def initialVelocity : Int := 0

/-- Polynomial evaluation by Horner's method over Q.128 values.
Modelled from the spec: the repository's `math.Polyval` helper is not among
the sources here; per the spec each Q.128 multiplication is a Q.256
intermediate right-shifted by 128 bits, so each Horner step is
`res := Rsh (res * x) 128 + coefficient`, seeded with the leading
coefficient. -/
def Polyval (p : List Int) (x : Int) : Int :=
  match p with
  | [] => 0
  | c :: cs => cs.foldl (fun res coef => Rsh (res * x) precision + coef) c

/-- Alpha-beta filter estimate: Q.128 position (smoothed value) and Q.128
velocity (rate of change), as in the source's `FilterEstimate`. -/
structure FilterEstimate where
  PositionEstimate : Int
  VelocityEstimate : Int
  deriving DecidableEq

/-- Q.0 position estimate of the filter (the source's `Estimate` method). -/
def Estimate (fe : FilterEstimate) : Int := Rsh fe.PositionEstimate precision

/-- Fresh estimate at the zero initial values (the source's
`InitialEstimate`). -/
def InitialEstimate : FilterEstimate :=
  { PositionEstimate := initialPosition, VelocityEstimate := initialVelocity }

/-- Filter state: previous estimate plus the Q.128 alpha and beta gains, as in
the source's `AlphaBetaFilter`. -/
structure AlphaBetaFilter where
  prevEstimate : FilterEstimate
  alpha : Int
  beta : Int
  deriving DecidableEq

/-- Constructor of a filter state (the source's `LoadFilter`). -/
def LoadFilter (prevEstimate : FilterEstimate) (alpha beta : Int) : AlphaBetaFilter :=
  { prevEstimate := prevEstimate, alpha := alpha, beta := beta }

/-- Q.128 epoch delta `deltaT` as computed at the top of the source's
`NextEstimate`: the Q.0 epoch delta left-shifted to Q.128.  It is the divisor
of the velocity revision. -/
def deltaTOf (epochDelta : Int) : Int := Lsh epochDelta precision

/-- One filter update (the source's `NextEstimate` method): extrapolate the
position by the velocity, form the residual against the Q.0 observation, and
revise position and velocity by the alpha and beta gains. -/
def NextEstimate (f : AlphaBetaFilter) (observation : Int) (epochDelta : Int) : FilterEstimate :=
  let deltaT := deltaTOf epochDelta
  let deltaX := Rsh (deltaT * f.prevEstimate.VelocityEstimate) precision
  let position := f.prevEstimate.PositionEstimate + deltaX
  let obs := Lsh observation precision
  let residual := obs - position
  let revisionX := Rsh (f.alpha * residual) precision
  let revisedPosition := position + revisionX
  let revisionV := bigDiv (f.beta * residual) deltaT
  let velocity := f.prevEstimate.VelocityEstimate + revisionV
  { PositionEstimate := revisedPosition, VelocityEstimate := velocity }

/-- State-passing form of the `NextEstimate` method call: the method reads the
filter through a pointer and writes none of its fields, so the state after the
call is the state before it, and the result is a newly constructed estimate. -/
def filterStep (f : AlphaBetaFilter) (observation epochDelta : Int) :
    FilterEstimate × AlphaBetaFilter :=
  ( NextEstimate f observation epochDelta, f)

/-- Bit length of the absolute value of an integer, as Go `big.Int.BitLen`
(0 for 0, otherwise one more than the floor of log2). -/
def bitLen (z : Int) : Nat := if z.natAbs = 0 then 0 else Nat.log2 z.natAbs + 1

/-- The shift amount `intK` computed inside the source's `ln`:
`uint(z.BitLen() - 1 - math.Precision)`, where the conversion of the signed
difference to a 64-bit `uint` wraps modulo `2^64`. -/
def lnIntK (z : Int) : Nat :=
  (((bitLen z : Int) - 1 - (precision : Int)) % (2 ^ 64)).toNat

/-- The exponent `k` computed inside the source's `ln`:
`big.NewInt(int64(intK))`, the two's-complement reinterpretation of the 64-bit
`intK` as a signed 64-bit integer. -/
def lnK (z : Int) : Int :=
  if lnIntK z < 2 ^ 63 then (lnIntK z : Int) else (lnIntK z : Int) - 2 ^ 64

/-- The mantissa `x` computed inside the source's `ln`: `z` right-shifted by
`intK` when the Q.128 exponent is positive, otherwise `z` left-shifted by
`intK`. -/
def lnMantissa (z : Int) : Int :=
  if 0 < Lsh (lnK z) precision then Rsh z (lnIntK z) else Lsh z (lnIntK z)

/-- Rational approximation of ln on mantissas (the source's
`lnBetweenOneAndTwo`): both 7-coefficient polynomials are evaluated by
Horner's method, the numerator value is left-shifted by 128 bits into Q.256,
and divided by the denominator value to give a Q.128 result. -/
def lnBetweenOneAndTwo (x : Int) : Int :=
  bigDiv (Lsh (Polyval lnNumCoef x) precision) (Polyval lnDenomCoef x)

/-- Fixed-point natural logarithm of a Q.128 value (the source's `ln`):
`ln (x * 2^k) = k * ln2 + ln x` with the mantissa handled by
`lnBetweenOneAndTwo`. -/
def ln (z : Int) : Int :=
  Rsh (Lsh (lnK z) precision * ln2) precision + lnBetweenOneAndTwo (lnMantissa z)

/-- Extrapolated cumulative sum of the ratio of two filter trajectories over
`[relativeStart, relativeStart + delta]` (the source's
`ExtrapolatedCumSumOfRatio`): a closed form with ln terms when the rescaled
squared denominator velocity exceeds the epsilon threshold, otherwise a
first-order (midpoint) approximation. -/
def ExtrapolatedCumSumOfRatio (delta relativeStart : Int)
    (estimateNum estimateDenom : FilterEstimate) : Int :=
  let deltaT := Lsh delta precision
  let t0 := Lsh relativeStart precision
  let position1 := estimateNum.PositionEstimate
  let position2 := estimateDenom.PositionEstimate
  let velocity1 := estimateNum.VelocityEstimate
  let velocity2 := estimateDenom.VelocityEstimate
  let squaredVelocity2 := Rsh (velocity2 * velocity2) precision
  if ExtrapolatedCumSumRatioEpsilon < squaredVelocity2 then
    let x2a := position2 + Rsh (t0 * velocity2) precision
    let x2b := x2a + Rsh (deltaT * velocity2) precision
    let lnx2a := ln x2a
    let lnx2b := ln x2b
    let m1 := Rsh (velocity2 * (position1 * (lnx2b - lnx2a))) (precision * 2)
    let m2 := Rsh (velocity1 * (position2 * (lnx2a - lnx2b) + velocity2 * deltaT))
      (precision * 2)
    bigDiv (m1 + m2) squaredVelocity2
  else
    let halfDeltaT := bigDiv deltaT 2
    let x1m := estimateNum.PositionEstimate +
      Rsh (estimateNum.VelocityEstimate * (t0 + halfDeltaT)) precision
    Rsh (bigDiv (x1m * deltaT) estimateDenom.PositionEstimate) precision

/-- The closed-form (ln-based) branch body of `ExtrapolatedCumSumOfRatio`,
taken when the rescaled squared denominator velocity exceeds epsilon. -/
def cumSumClosedForm (delta relativeStart : Int)
    (estimateNum estimateDenom : FilterEstimate) : Int :=
  let deltaT := Lsh delta precision
  let t0 := Lsh relativeStart precision
  let position1 := estimateNum.PositionEstimate
  let position2 := estimateDenom.PositionEstimate
  let velocity1 := estimateNum.VelocityEstimate
  let velocity2 := estimateDenom.VelocityEstimate
  let squaredVelocity2 := Rsh (velocity2 * velocity2) precision
  let x2a := position2 + Rsh (t0 * velocity2) precision
  let x2b := x2a + Rsh (deltaT * velocity2) precision
  let lnx2a := ln x2a
  let lnx2b := ln x2b
  let m1 := Rsh (velocity2 * (position1 * (lnx2b - lnx2a))) (precision * 2)
  let m2 := Rsh (velocity1 * (position2 * (lnx2a - lnx2b) + velocity2 * deltaT))
    (precision * 2)
  bigDiv (m1 + m2) squaredVelocity2

/-- The first-order Taylor (midpoint-rule) branch body of
`ExtrapolatedCumSumOfRatio`, taken when the rescaled squared denominator
velocity does not exceed epsilon: the numerator's value at the interval
midpoint times the interval length, divided by the denominator's position. -/
def cumSumTaylorApprox (delta relativeStart : Int)
    (estimateNum estimateDenom : FilterEstimate) : Int :=
  let deltaT := Lsh delta precision
  let t0 := Lsh relativeStart precision
  let halfDeltaT := bigDiv deltaT 2
  let x1m := estimateNum.PositionEstimate +
    Rsh (estimateNum.VelocityEstimate * (t0 + halfDeltaT)) precision
  Rsh (bigDiv (x1m * deltaT) estimateDenom.PositionEstimate) precision

/-- Division guarded against a zero divisor, used to express that the
unguarded divisions of `ExtrapolatedCumSumOfRatio` never divide by zero. -/
def checkedDiv (a b : Int) : Option Int :=
  if b = 0 then none else some (a / b)

/-- Variant of `ExtrapolatedCumSumOfRatio` in which each of its divisions
(the halving of `deltaT`, the final closed-form division by the rescaled
squared velocity, and the midpoint-branch division by the denominator's
position) is guarded against a zero divisor. -/
def checkedCumSumOfRatio (delta relativeStart : Int)
    (estimateNum estimateDenom : FilterEstimate) : Option Int :=
  let deltaT := Lsh delta precision
  let t0 := Lsh relativeStart precision
  let position1 := estimateNum.PositionEstimate
  let position2 := estimateDenom.PositionEstimate
  let velocity1 := estimateNum.VelocityEstimate
  let velocity2 := estimateDenom.VelocityEstimate
  let squaredVelocity2 := Rsh (velocity2 * velocity2) precision
  if ExtrapolatedCumSumRatioEpsilon < squaredVelocity2 then
    let x2a := position2 + Rsh (t0 * velocity2) precision
    let x2b := x2a + Rsh (deltaT * velocity2) precision
    let lnx2a := ln x2a
    let lnx2b := ln x2b
    let m1 := Rsh (velocity2 * (position1 * (lnx2b - lnx2a))) (precision * 2)
    let m2 := Rsh (velocity1 * (position2 * (lnx2a - lnx2b) + velocity2 * deltaT))
      (precision * 2)
    checkedDiv (m1 + m2) squaredVelocity2
  else
    match checkedDiv deltaT 2 with
    | none => none
    | some halfDeltaT =>
      let x1m := estimateNum.PositionEstimate +
        Rsh (estimateNum.VelocityEstimate * (t0 + halfDeltaT)) precision
      match checkedDiv (x1m * deltaT) estimateDenom.PositionEstimate with
      | none => none
      | some q => some (Rsh q precision)

/-- Euclidean division composes: dividing by `b` and then by `c` is dividing
by `b * c`, for positive divisors.  This is what makes the source's single
division of the Q.256 velocity revision by `deltaT = epochDelta * 2^128`
agree with a 128-bit rescale followed by a division by `epochDelta`. -/
theorem ediv_ediv_of_pos (a : Int) {b c : Int} (hb : 0 < b) (hc : 0 < c) :
    a / b / c = a / (b * c) := by
  have hb0 : b ≠ 0 := ne_of_gt hb
  have hc0 : c ≠ 0 := ne_of_gt hc
  have hbc : b * c ≠ 0 := mul_ne_zero hb0 hc0
  have h1 : b * (a / b) + a % b = a := Int.ediv_add_emod a b
  have h2 : c * (a / b / c) + a / b % c = a / b := Int.ediv_add_emod (a / b) c
  have hr0 : 0 ≤ a % b := Int.emod_nonneg a hb0
  have hrb : a % b < b := Int.emod_lt_of_pos a hb
  have hq0 : 0 ≤ a / b % c := Int.emod_nonneg (a / b) hc0
  have hqc : a / b % c < c := Int.emod_lt_of_pos (a / b) hc
  have ha : a = (b * (a / b % c) + a % b) + (a / b / c) * (b * c) := by
    linear_combination (-1 : Int) * h1 - b * h2
  have hz : (b * (a / b % c) + a % b) / (b * c) = 0 := by
    apply Int.ediv_eq_zero_of_lt
    · exact add_nonneg (mul_nonneg hb.le hq0) hr0
    · have hm : a / b % c + 1 ≤ c := hqc
      nlinarith [mul_le_mul_of_nonneg_left hm hb.le]
  conv_rhs => rw [ha]
  rw [Int.add_mul_ediv_right _ _ hbc, hz, zero_add]

/-- A bit-length bracket pins down `bitLen`: if `2 ^ L ≤ |z| < 2 ^ (L + 1)`
then the bit length of `z` is `L + 1`. -/
theorem bitLen_eq_of_bounds {z : Int} {L : Nat} (h1 : 2 ^ L ≤ z.natAbs)
    (h2 : z.natAbs < 2 ^ (L + 1)) : bitLen z = L + 1 := by
  have hz : z.natAbs ≠ 0 := by
    have : 0 < 2 ^ L := Nat.pos_pow_of_pos L (by norm_num)
    omega
  unfold bitLen
  rw [if_neg hz]
  have hlo : L ≤ z.natAbs.log2 := (Nat.le_log2 hz).mpr h1
  have hhi : z.natAbs.log2 < L + 1 := (Nat.log2_lt hz).mpr h2
  omega

/-- Lower bit-length bound: the absolute value of `z` is at least
`2 ^ (bitLen z - 1)` when `z` is nonzero. -/
theorem le_of_bitLen {z : Int} (hz : z.natAbs ≠ 0) :
    2 ^ (bitLen z - 1) ≤ z.natAbs := by
  unfold bitLen
  rw [if_neg hz]
  simpa using Nat.log2_self_le hz

/-- Upper bit-length bound: the absolute value of `z` is below
`2 ^ bitLen z`. -/
theorem lt_of_bitLen (z : Int) : z.natAbs < 2 ^ bitLen z := by
  unfold bitLen
  by_cases hz : z.natAbs = 0
  · simp [hz]
  · rw [if_neg hz]
    exact Nat.lt_log2_self

/-- Structure of the source's `ln` on its effective domain `z ≥ 1` (Q.128
`z ≥ 2^128`, with a bit length small enough that the `uint` conversion of
`intK` does not wrap): the internal shift is `bitLen z - 129`, the mantissa is
`z` divided by `2 ^ (bitLen z - 129)` and lies in `[2^128, 2^129)`, and the
result decomposes exactly as `k * ln2` plus the mantissa's rational
approximation. -/
theorem ln_decomp {z : Int} (h1 : 2 ^ 128 ≤ z) (h2 : bitLen z ≤ 2 ^ 63) :
    129 ≤ bitLen z ∧
    lnIntK z = bitLen z - 129 ∧
    lnK z = (bitLen z : Int) - 129 ∧
    lnMantissa z = z / 2 ^ (bitLen z - 129) ∧
    2 ^ 128 ≤ lnMantissa z ∧ lnMantissa z < 2 ^ 129 ∧
    ln z = ((bitLen z : Int) - 129) * ln2 + lnBetweenOneAndTwo (lnMantissa z) := by
  have hzpos : 0 < z := lt_of_lt_of_le (by positivity) h1
  have habs : (z.natAbs : Int) = z := Int.natAbs_of_nonneg hzpos.le
  have habsge : 2 ^ 128 ≤ z.natAbs := by
    have : ((2 ^ 128 : Nat) : Int) ≤ (z.natAbs : Int) := by
      rw [habs]; exact_mod_cast h1
    exact_mod_cast this
  have hzne : z.natAbs ≠ 0 := by
    have : (0 : Nat) < 2 ^ 128 := by positivity
    omega
  have hL129 : 129 ≤ bitLen z := by
    unfold bitLen
    rw [if_neg hzne]
    have : 128 ≤ z.natAbs.log2 := (Nat.le_log2 hzne).mpr habsge
    omega
  have hIntK : lnIntK z = bitLen z - 129 := by
    unfold lnIntK
    have he : ((bitLen z : Int) - 1 - (precision : Int)) % (2 ^ 64) =
        (bitLen z : Int) - 129 := by
      have hp : (precision : Int) = 128 := by norm_num [precision]
      rw [hp]
      have h0 : 0 ≤ (bitLen z : Int) - 1 - 128 := by
        have : (129 : Int) ≤ (bitLen z : Int) := by exact_mod_cast hL129
        omega
      have hlt : (bitLen z : Int) - 1 - 128 < 2 ^ 64 := by
        have : (bitLen z : Int) ≤ 2 ^ 63 := by exact_mod_cast h2
        omega
      rw [Int.emod_eq_of_lt h0 hlt]
      omega
    rw [he]
    omega
  have hKlt : lnIntK z < 2 ^ 63 := by
    rw [hIntK]
    omega
  have hK : lnK z = (bitLen z : Int) - 129 := by
    unfold lnK
    rw [if_pos hKlt, hIntK]
    have : (129 : Nat) ≤ bitLen z := hL129
    omega
  have hpow_pos : (0 : Int) < 2 ^ (bitLen z - 129) := by positivity
  have hzlo : 2 ^ ((bitLen z : Nat) - 1) ≤ z := by
    have := le_of_bitLen hzne
    have : ((2 ^ (bitLen z - 1) : Nat) : Int) ≤ (z.natAbs : Int) := by exact_mod_cast this
    rw [habs] at this
    simpa using this
  have hzhi : z < 2 ^ (bitLen z : Nat) := by
    have := lt_of_bitLen z
    have : ((z.natAbs : Nat) : Int) < ((2 ^ bitLen z : Nat) : Int) := by exact_mod_cast this
    rw [habs] at this
    simpa using this
  have hM : lnMantissa z = z / 2 ^ (bitLen z - 129) := by
    unfold lnMantissa
    by_cases hk : 130 ≤ bitLen z
    · have hcond : 0 < Lsh (lnK z) precision := by
        rw [hK]
        unfold Lsh
        have h130 : (130 : Int) ≤ (bitLen z : Int) := by exact_mod_cast hk
        have : (0 : Int) < (bitLen z : Int) - 129 := by omega
        positivity
      rw [if_pos hcond, hIntK]
      unfold Rsh
      exact Int.fdiv_eq_ediv z (by positivity)
    · have h129 : bitLen z = 129 := by omega
      have hcond : ¬ 0 < Lsh (lnK z) precision := by
        rw [hK, h129]
        unfold Lsh
        norm_num
      rw [if_neg hcond, hIntK, h129]
      unfold Lsh
      norm_num
  have hMlo : 2 ^ 128 ≤ lnMantissa z := by
    rw [hM]
    rw [Int.le_ediv_iff_mul_le hpow_pos]
    calc (2 : Int) ^ 128 * 2 ^ (bitLen z - 129) = 2 ^ (128 + (bitLen z - 129)) := by
          rw [pow_add]
      _ = 2 ^ ((bitLen z : Nat) - 1) := by
          congr 1
          omega
      _ ≤ z := hzlo
  have hMhi : lnMantissa z < 2 ^ 129 := by
    rw [hM]
    rw [Int.ediv_lt_iff_lt_mul hpow_pos]
    calc z < 2 ^ (bitLen z : Nat) := hzhi
      _ = 2 ^ 129 * 2 ^ (bitLen z - 129) := by
          rw [← pow_add]
          congr 1
          omega
  refine ⟨hL129, hIntK, hK, hM, hMlo, hMhi, ?_⟩
  unfold ln
  congr 1
  unfold Lsh Rsh
  rw [hK]
  have : ((bitLen z : Int) - 129) * 2 ^ precision * ln2 =
      ((bitLen z : Int) - 129) * ln2 * 2 ^ precision := by ring
  rw [this]
  exact Int.mul_fdiv_cancel _ (by positivity)

/-- Claim C1: `NextEstimate` extrapolates the previous position by
`epochDelta * velocity`, revises the position by `alpha * residual`, and
revises the velocity by `beta * residual` rescaled right by 128 bits and then
divided by `epochDelta` — the source's single division by
`deltaT = epochDelta * 2^128` agrees with that two-step form. -/
theorem nextEstimate_formula (f : AlphaBetaFilter) (observation epochDelta : Int)
    (h : 0 < epochDelta) :
    ( NextEstimate f observation epochDelta).PositionEstimate =
      f.prevEstimate.PositionEstimate +
        Rsh (Lsh epochDelta precision * f.prevEstimate.VelocityEstimate) precision +
        Rsh (f.alpha * (Lsh observation precision -
          (f.prevEstimate.PositionEstimate +
            Rsh (Lsh epochDelta precision * f.prevEstimate.VelocityEstimate) precision)))
          precision ∧
    ( NextEstimate f observation epochDelta).VelocityEstimate =
      f.prevEstimate.VelocityEstimate +
        bigDiv (Rsh (f.beta * (Lsh observation precision -
          (f.prevEstimate.PositionEstimate +
            Rsh (Lsh epochDelta precision * f.prevEstimate.VelocityEstimate) precision)))
          precision) epochDelta := by
  unfold NextEstimate deltaTOf
  refine ⟨rfl, ?_⟩
  show f.prevEstimate.VelocityEstimate + bigDiv _ (Lsh epochDelta precision) = _
  have key : ∀ r : Int, bigDiv r (Lsh epochDelta precision) =
      bigDiv (Rsh r precision) epochDelta := by
    intro r
    unfold bigDiv Rsh Lsh
    rw [Int.fdiv_eq_ediv _ (by positivity : (0 : Int) ≤ 2 ^ precision),
      ediv_ediv_of_pos _ (by positivity : (0 : Int) < 2 ^ precision) h,
      mul_comm ((2 : Int) ^ precision) epochDelta]
  rw [key]

/-- Witness for claim C1 at a concrete filter, observation and epoch delta. -/
theorem nextEstimate_formula_witness :
    0 < (4 : Int) ∧
    (( NextEstimate (LoadFilter ⟨5, 3⟩ 2 7) 11 4).PositionEstimate =
      (LoadFilter ⟨5, 3⟩ 2 7).prevEstimate.PositionEstimate +
        Rsh (Lsh 4 precision * (LoadFilter ⟨5, 3⟩ 2 7).prevEstimate.VelocityEstimate)
          precision +
        Rsh ((LoadFilter ⟨5, 3⟩ 2 7).alpha * (Lsh 11 precision -
          ((LoadFilter ⟨5, 3⟩ 2 7).prevEstimate.PositionEstimate +
            Rsh (Lsh 4 precision * (LoadFilter ⟨5, 3⟩ 2 7).prevEstimate.VelocityEstimate)
              precision))) precision ∧
    ( NextEstimate (LoadFilter ⟨5, 3⟩ 2 7) 11 4).VelocityEstimate =
      (LoadFilter ⟨5, 3⟩ 2 7).prevEstimate.VelocityEstimate +
        bigDiv (Rsh ((LoadFilter ⟨5, 3⟩ 2 7).beta * (Lsh 11 precision -
          ((LoadFilter ⟨5, 3⟩ 2 7).prevEstimate.PositionEstimate +
            Rsh (Lsh 4 precision * (LoadFilter ⟨5, 3⟩ 2 7).prevEstimate.VelocityEstimate)
              precision))) precision) 4) :=
  ⟨by norm_num, nextEstimate_formula (LoadFilter ⟨5, 3⟩ 2 7) 11 4 (by norm_num)⟩

/-- Claim C5: with both gains zero, `NextEstimate` is pure dead reckoning —
the position advances by exactly `epochDelta * velocity` (the rescale of the
Q.256 product is exact) and the velocity is unchanged. -/
theorem nextEstimate_deadReckoning (prev : FilterEstimate) (observation epochDelta : Int)
    (h : 0 < epochDelta) :
    NextEstimate (LoadFilter prev 0 0) observation epochDelta =
      { PositionEstimate := prev.PositionEstimate + epochDelta * prev.VelocityEstimate,
        VelocityEstimate := prev.VelocityEstimate } := by
  unfold NextEstimate LoadFilter deltaTOf
  have hdx : Rsh (Lsh epochDelta precision * prev.VelocityEstimate) precision =
      epochDelta * prev.VelocityEstimate := by
    unfold Rsh Lsh
    rw [show epochDelta * 2 ^ precision * prev.VelocityEstimate =
        epochDelta * prev.VelocityEstimate * 2 ^ precision by ring]
    exact Int.mul_fdiv_cancel _ (by positivity)
  simp only [hdx, zero_mul, bigDiv, Int.zero_ediv, add_zero]
  unfold Rsh
  simp [Int.zero_fdiv]

/-- Witness for claim C5 at a concrete previous estimate and epoch delta. -/
theorem nextEstimate_deadReckoning_witness :
    0 < (2 : Int) ∧
    NextEstimate (LoadFilter ⟨9, 4⟩ 0 0) 6 2 =
      { PositionEstimate := (⟨9, 4⟩ : FilterEstimate).PositionEstimate +
          2 * (⟨9, 4⟩ : FilterEstimate).VelocityEstimate,
        VelocityEstimate := (⟨9, 4⟩ : FilterEstimate).VelocityEstimate } :=
  ⟨by norm_num, nextEstimate_deadReckoning ⟨9, 4⟩ 6 2 (by norm_num)⟩

/-- Claim C2: `ExtrapolatedCumSumOfRatio` selects between exactly two regimes
by a strict comparison of the rescaled squared denominator velocity against
the epsilon constant (which equals the Q.128 value of `2^-50`, i.e. `2^78`):
strictly above it evaluates the ln-based closed form, otherwise — including
exactly at the threshold — the first-order midpoint approximation. -/
theorem cumSum_branch_selection (delta relativeStart : Int)
    (estimateNum estimateDenom : FilterEstimate) :
    ExtrapolatedCumSumRatioEpsilon = 2 ^ 78 ∧
    (2 ^ 78 <
        Rsh (estimateDenom.VelocityEstimate * estimateDenom.VelocityEstimate) precision →
      ExtrapolatedCumSumOfRatio delta relativeStart estimateNum estimateDenom =
        cumSumClosedForm delta relativeStart estimateNum estimateDenom) ∧
    (Rsh (estimateDenom.VelocityEstimate * estimateDenom.VelocityEstimate) precision ≤
        2 ^ 78 →
      ExtrapolatedCumSumOfRatio delta relativeStart estimateNum estimateDenom =
        cumSumTaylorApprox delta relativeStart estimateNum estimateDenom) := by
  have heps : ExtrapolatedCumSumRatioEpsilon = 2 ^ 78 := by
    norm_num [ExtrapolatedCumSumRatioEpsilon]
  refine ⟨heps, ?_, ?_⟩
  · intro hgt
    have hc : ExtrapolatedCumSumRatioEpsilon <
        Rsh (estimateDenom.VelocityEstimate * estimateDenom.VelocityEstimate) precision := by
      rw [heps]; exact hgt
    unfold ExtrapolatedCumSumOfRatio cumSumClosedForm
    rw [if_pos hc]
  · intro hle
    have hc : ¬ ExtrapolatedCumSumRatioEpsilon <
        Rsh (estimateDenom.VelocityEstimate * estimateDenom.VelocityEstimate) precision := by
      rw [heps]; exact not_lt.mpr hle
    unfold ExtrapolatedCumSumOfRatio cumSumTaylorApprox
    rw [if_neg hc]

/-- Witness for claim C2: a closed-form-branch input and a Taylor-branch
input, with the branch conditions discharged concretely. -/
theorem cumSum_branch_selection_witness :
    ExtrapolatedCumSumOfRatio 4 2 ⟨3 * 2 ^ 128, 2 ^ 127⟩ ⟨10 * 2 ^ 128, 2 ^ 128⟩ =
      cumSumClosedForm 4 2 ⟨3 * 2 ^ 128, 2 ^ 127⟩ ⟨10 * 2 ^ 128, 2 ^ 128⟩ ∧
    ExtrapolatedCumSumOfRatio 4 2 ⟨3 * 2 ^ 128, 2 ^ 127⟩ ⟨10 * 2 ^ 128, 0⟩ =
      cumSumTaylorApprox 4 2 ⟨3 * 2 ^ 128, 2 ^ 127⟩ ⟨10 * 2 ^ 128, 0⟩ :=
  ⟨(cumSum_branch_selection 4 2 ⟨3 * 2 ^ 128, 2 ^ 127⟩ ⟨10 * 2 ^ 128, 2 ^ 128⟩).2.1
      (by decide),
   (cumSum_branch_selection 4 2 ⟨3 * 2 ^ 128, 2 ^ 127⟩ ⟨10 * 2 ^ 128, 0⟩).2.2
      (by decide)⟩

/-- Claim C7: under the precondition that the denominator position is nonzero
whenever the rescaled squared denominator velocity does not exceed epsilon,
every division of `ExtrapolatedCumSumOfRatio` has a nonzero divisor: the
guarded variant returns exactly the unguarded result. -/
theorem checkedCumSum_total (delta relativeStart : Int)
    (estimateNum estimateDenom : FilterEstimate)
    (h : Rsh (estimateDenom.VelocityEstimate * estimateDenom.VelocityEstimate) precision ≤
        ExtrapolatedCumSumRatioEpsilon → estimateDenom.PositionEstimate ≠ 0) :
    checkedCumSumOfRatio delta relativeStart estimateNum estimateDenom =
      some ( ExtrapolatedCumSumOfRatio delta relativeStart estimateNum estimateDenom) := by
  unfold checkedCumSumOfRatio ExtrapolatedCumSumOfRatio
  by_cases hc : ExtrapolatedCumSumRatioEpsilon <
      Rsh (estimateDenom.VelocityEstimate * estimateDenom.VelocityEstimate) precision
  · rw [if_pos hc, if_pos hc]
    have hne : Rsh (estimateDenom.VelocityEstimate * estimateDenom.VelocityEstimate)
        precision ≠ 0 := by
      have hpos : (0 : Int) < ExtrapolatedCumSumRatioEpsilon := by
        norm_num [ExtrapolatedCumSumRatioEpsilon]
      exact (lt_trans hpos hc).ne'
    unfold checkedDiv bigDiv
    rw [if_neg hne]
  · rw [if_neg hc, if_neg hc]
    have hp : estimateDenom.PositionEstimate ≠ 0 := h (not_lt.mp hc)
    unfold checkedDiv bigDiv
    rw [if_neg (by norm_num : ¬ (2 : Int) = 0)]
    dsimp only
    rw [if_neg hp]

/-- Witness for claim C7 at a Taylor-branch input with nonzero denominator
position. -/
theorem checkedCumSum_total_witness :
    checkedCumSumOfRatio 4 2 ⟨3 * 2 ^ 128, 2 ^ 127⟩ ⟨10 * 2 ^ 128, 0⟩ =
      some ( ExtrapolatedCumSumOfRatio 4 2 ⟨3 * 2 ^ 128, 2 ^ 127⟩ ⟨10 * 2 ^ 128, 0⟩) :=
  checkedCumSum_total 4 2 ⟨3 * 2 ^ 128, 2 ^ 127⟩ ⟨10 * 2 ^ 128, 0⟩ (fun _ => by decide)

/-- Claim C9: the right shift of the left shift of any Q.128 value recovers
the value exactly, for every shift amount (the helpers are arbitrary
precision, so no width bound is needed at all). -/
theorem rsh_lsh_roundtrip (a : Int) (k : Nat) : Rsh (Lsh a k) k = a := by
  unfold Rsh Lsh
  exact Int.mul_fdiv_cancel a (by positivity)

/-- Claim C6: with `epochDelta > 0` the divisor `deltaT` of the velocity
revision in `NextEstimate` is nonzero, and at `epochDelta = 0` it is zero. -/
theorem deltaT_divisor (epochDelta : Int) :
    (0 < epochDelta → deltaTOf epochDelta ≠ 0) ∧
    (epochDelta = 0 → deltaTOf epochDelta = 0) := by
  constructor
  · intro h
    unfold deltaTOf Lsh
    positivity
  · intro h
    unfold deltaTOf Lsh
    rw [h]
    ring

/-- Witness for claim C6 at the concrete epoch deltas 1 and 0. -/
theorem deltaT_divisor_witness : deltaTOf 1 ≠ 0 ∧ deltaTOf 0 = 0 :=
  ⟨(deltaT_divisor 1).1 one_pos, (deltaT_divisor 0).2 rfl⟩

/-- Claim C8: `InitialEstimate` has zero position and velocity, and the
`NextEstimate` method call leaves the filter's stored previous estimate
untouched, returning a newly constructed estimate. -/
theorem initialEstimate_zero_and_frame :
    InitialEstimate.PositionEstimate = 0 ∧ InitialEstimate.VelocityEstimate = 0 ∧
    ∀ (f : AlphaBetaFilter) (observation epochDelta : Int),
      (filterStep f observation epochDelta).2 = f ∧
      (filterStep f observation epochDelta).1 = NextEstimate f observation epochDelta :=
  ⟨rfl, rfl, fun _ _ _ => ⟨rfl, rfl⟩⟩

/-- Claim C10: the three arithmetic entry points are deterministic — equal
inputs give equal outputs, with no dependence on anything outside the
arguments and the fixed protocol constants. -/
theorem smoothing_deterministic (f g : AlphaBetaFilter) (o1 o2 d1 d2 : Int)
    (delta1 delta2 rs1 rs2 : Int) (n1 n2 dn1 dn2 : FilterEstimate) (z1 z2 : Int)
    (hf : f = g) (ho : o1 = o2) (hd : d1 = d2) (hdelta : delta1 = delta2)
    (hrs : rs1 = rs2) (hn : n1 = n2) (hdn : dn1 = dn2) (hz : z1 = z2) :
    NextEstimate f o1 d1 = NextEstimate g o2 d2 ∧
    ExtrapolatedCumSumOfRatio delta1 rs1 n1 dn1 =
      ExtrapolatedCumSumOfRatio delta2 rs2 n2 dn2 ∧
    ln z1 = ln z2 := by
  subst hf ho hd hdelta hrs hn hdn hz
  exact ⟨rfl, rfl, rfl⟩

/-- Claim C3, amended to the effective domain `z ≥ 1` (Q.128 `z ≥ 2^128`, bit
length below the `uint64` wrap): `ln z` equals `k * ln2` exactly (the Q.128
multiplication of the shifted `k` by `ln2` rescales without loss) plus
`lnBetweenOneAndTwo` of the mantissa `x = ⌊z / 2^k⌋` with `k = bitLen z - 129`,
where `1 ≤ x < 2` in Q.128 and `x * 2^k ≤ z < (x+1) * 2^k`; the mantissa
approximation is the two Horner polynomials with the numerator left-shifted
into extended width and divided by the denominator. -/
theorem ln_decomposition (z : Int) (h1 : 2 ^ 128 ≤ z) (h2 : bitLen z ≤ 2 ^ 63) :
    2 ^ 128 ≤ lnMantissa z ∧ lnMantissa z < 2 ^ 129 ∧
    lnMantissa z * 2 ^ (bitLen z - 129) ≤ z ∧
    z < (lnMantissa z + 1) * 2 ^ (bitLen z - 129) ∧
    ln z = ((bitLen z : Int) - 129) * ln2 + lnBetweenOneAndTwo (lnMantissa z) ∧
    lnBetweenOneAndTwo (lnMantissa z) =
      bigDiv (Lsh (Polyval lnNumCoef (lnMantissa z)) precision)
        (Polyval lnDenomCoef (lnMantissa z)) := by
  obtain ⟨hL, hIntK, hK, hM, hlo, hhi, heq⟩ := ln_decomp h1 h2
  have hpow : (0 : Int) < 2 ^ (bitLen z - 129) := by positivity
  refine ⟨hlo, hhi, ?_, ?_, heq, rfl⟩
  · rw [hM]
    exact (Int.le_ediv_iff_mul_le hpow).mp le_rfl
  · rw [hM]
    exact Int.lt_ediv_add_one_mul_self z hpow

/-- Witness for claim C3 at the concrete Q.128 input 3 (bit length 130). -/
theorem ln_decomposition_witness :
    (2 : Int) ^ 128 ≤ 3 * 2 ^ 128 ∧ bitLen (3 * 2 ^ 128 : Int) ≤ 2 ^ 63 ∧
    (2 ^ 128 ≤ lnMantissa (3 * 2 ^ 128 : Int) ∧
      lnMantissa (3 * 2 ^ 128 : Int) < 2 ^ 129 ∧
      lnMantissa (3 * 2 ^ 128 : Int) * 2 ^ (bitLen (3 * 2 ^ 128 : Int) - 129) ≤
        3 * 2 ^ 128 ∧
      3 * 2 ^ 128 <
        (lnMantissa (3 * 2 ^ 128 : Int) + 1) * 2 ^ (bitLen (3 * 2 ^ 128 : Int) - 129) ∧
      ln (3 * 2 ^ 128) = ((bitLen (3 * 2 ^ 128 : Int) : Int) - 129) * ln2 +
        lnBetweenOneAndTwo (lnMantissa (3 * 2 ^ 128 : Int)) ∧
      lnBetweenOneAndTwo (lnMantissa (3 * 2 ^ 128 : Int)) =
        bigDiv (Lsh (Polyval lnNumCoef (lnMantissa (3 * 2 ^ 128 : Int))) precision)
          (Polyval lnDenomCoef (lnMantissa (3 * 2 ^ 128 : Int)))) := by
  have hb : bitLen (3 * 2 ^ 128 : Int) = 130 :=
    bitLen_eq_of_bounds (L := 129) (by decide) (by decide)
  have h2 : bitLen (3 * 2 ^ 128 : Int) ≤ 2 ^ 63 := by
    rw [hb]; norm_num
  exact ⟨by norm_num, h2, ln_decomposition (3 * 2 ^ 128) (by norm_num) h2⟩

/-- Counterexample to claim C3 as stated: at the Q.128 input `z = 1`
(value `2^-128 > 0`), the wrapped `uint` conversion of the negative shift
makes the code's mantissa `2^(2^64 - 128)`, which is far outside `[1, 2)`,
so the claimed decomposition fails for inputs below 1. -/
theorem ln_decomposition_claim_false :
    ¬ (∀ z : Int, 0 < z →
        2 ^ 128 ≤ lnMantissa z ∧ lnMantissa z < 2 ^ 129 ∧
        ln z = lnK z * ln2 + lnBetweenOneAndTwo (lnMantissa z)) := by
  intro hclaim
  have h1 := (hclaim 1 one_pos).2.1
  have hb : bitLen (1 : Int) = 1 := bitLen_eq_of_bounds (L := 0) (by decide) (by decide)
  have hk : lnIntK (1 : Int) = 18446744073709551488 := by
    unfold lnIntK
    rw [hb]
    decide
  have hK : lnK (1 : Int) = -128 := by
    unfold lnK
    rw [hk]
    decide
  have hcond : ¬ 0 < Lsh (lnK (1 : Int)) precision := by
    rw [hK]
    unfold Lsh
    decide
  have hm : lnMantissa (1 : Int) = 2 ^ 18446744073709551488 := by
    unfold lnMantissa
    rw [if_neg hcond, hk]
    unfold Lsh
    rw [one_mul]
  have hge : (2 : Int) ^ 129 ≤ 2 ^ 18446744073709551488 :=
    pow_le_pow_right₀ (by norm_num) (by norm_num)
  rw [hm] at h1
  exact absurd h1 (not_lt.mpr hge)

/-- Claim C4, amended: on the effective domain `z ≥ 1` the doubling identity
is exact — `ln (2z) = ln z + ln2` with no rounding error at all (so ln is
strictly increasing under doubling) — while strict monotonicity between
arbitrary inputs fails (see the counterexample: adjacent inputs can share an
output). -/
theorem ln_doubling (z : Int) (h1 : 2 ^ 128 ≤ z) (h2 : bitLen z + 1 ≤ 2 ^ 63) :
    ln (2 * z) = ln z + ln2 ∧ ln z < ln (2 * z) := by
  have hzpos : 0 < z := lt_of_lt_of_le (by positivity) h1
  have hzne : z.natAbs ≠ 0 := by
    have := Int.natAbs_pos.mpr hzpos.ne'
    omega
  have hble : bitLen (2 * z) = bitLen z + 1 := by
    unfold bitLen
    have hna : (2 * z).natAbs = 2 * z.natAbs := by
      rw [Int.natAbs_mul]
      rfl
    rw [hna, if_neg (by omega : ¬ 2 * z.natAbs = 0), if_neg hzne]
    rw [Nat.log2_eq_log_two, Nat.log2_eq_log_two, mul_comm]
    rw [Nat.log_mul_base (by norm_num) hzne]
  obtain ⟨hL129, _, _, hMz, _, _, heqz⟩ := ln_decomp h1 (by omega)
  have h1' : (2 : Int) ^ 128 ≤ 2 * z := by
    calc (2 : Int) ^ 128 ≤ z := h1
      _ ≤ 2 * z := by linarith
  obtain ⟨_, _, _, hM2, _, _, heq2⟩ := ln_decomp h1' (by rw [hble]; exact h2)
  have hMeq : lnMantissa (2 * z) = lnMantissa z := by
    rw [hM2, hMz, hble]
    have he : bitLen z + 1 - 129 = (bitLen z - 129) + 1 := by omega
    rw [he, pow_succ' (2 : Int) (bitLen z - 129)]
    exact Int.mul_ediv_mul_of_pos _ _ (by norm_num : (0 : Int) < 2)
  have hln2 : ln (2 * z) = ((bitLen z : Int) + 1 - 129) * ln2 +
      lnBetweenOneAndTwo (lnMantissa z) := by
    rw [heq2, hble, hMeq]
    push_cast
    ring
  have hexpand : ((bitLen z : Int) + 1 - 129) * ln2 =
      ((bitLen z : Int) - 129) * ln2 + ln2 := by ring
  constructor
  · rw [hln2, heqz, hexpand]
    ring
  · rw [hln2, heqz, hexpand]
    have hpos : (0 : Int) < ln2 := by norm_num [ln2]
    linarith

/-- Witness for claim C4 at the concrete Q.128 input 1 (`z = 2^128`). -/
theorem ln_doubling_witness :
    (2 : Int) ^ 128 ≤ 2 ^ 128 ∧ bitLen (2 ^ 128 : Int) + 1 ≤ 2 ^ 63 ∧
    (ln (2 * 2 ^ 128) = ln (2 ^ 128) + ln2 ∧ ln (2 ^ 128 : Int) < ln (2 * 2 ^ 128)) := by
  have hb : bitLen (2 ^ 128 : Int) = 129 :=
    bitLen_eq_of_bounds (L := 128) (by decide) (by decide)
  have h2 : bitLen (2 ^ 128 : Int) + 1 ≤ 2 ^ 63 := by
    rw [hb]; norm_num
  exact ⟨le_rfl, h2, ln_doubling (2 ^ 128) le_rfl h2⟩

/-- Counterexample to claim C4 as stated: ln is not strictly monotone — the
adjacent Q.128 inputs `2^129` and `2^129 + 1` share the same mantissa after
the right shift and therefore the same output. -/
theorem ln_strict_mono_claim_false :
    ¬ (∀ x y : Int, 0 < x → 0 < y → x < y → ln x < ln y) := by
  intro hclaim
  have hb : bitLen (2 ^ 129 : Int) = 130 :=
    bitLen_eq_of_bounds (L := 129) (by decide) (by decide)
  have hb' : bitLen (2 ^ 129 + 1 : Int) = 130 :=
    bitLen_eq_of_bounds (L := 129) (by decide) (by decide)
  have e1 : ln (2 ^ 129 : Int) = 235865763225513294137944142764154485277 := by
    have hk : lnIntK (2 ^ 129 : Int) = 1 := by
      unfold lnIntK
      rw [hb]
      decide
    have hK : lnK (2 ^ 129 : Int) = 1 := by
      unfold lnK
      rw [hk]
      decide
    have hm : lnMantissa (2 ^ 129 : Int) = 2 ^ 128 := by
      unfold lnMantissa
      rw [hK, hk]
      decide
    unfold ln
    rw [hK, hm]
    decide
  have e2 : ln (2 ^ 129 + 1 : Int) = 235865763225513294137944142764154485277 := by
    have hk : lnIntK (2 ^ 129 + 1 : Int) = 1 := by
      unfold lnIntK
      rw [hb']
      decide
    have hK : lnK (2 ^ 129 + 1 : Int) = 1 := by
      unfold lnK
      rw [hk]
      decide
    have hm : lnMantissa (2 ^ 129 + 1 : Int) = 2 ^ 128 := by
      unfold lnMantissa
      rw [hK, hk]
      decide
    unfold ln
    rw [hK, hm]
    decide
  have hlt := hclaim (2 ^ 129) (2 ^ 129 + 1) (by positivity) (by positivity) (by norm_num)
  rw [e1, e2] at hlt
  exact lt_irrefl _ hlt

/-- Witness for claim C10 at concrete inputs. -/
theorem smoothing_deterministic_witness :
    NextEstimate (LoadFilter ⟨3, 4⟩ 5 6) 7 8 = NextEstimate (LoadFilter ⟨3, 4⟩ 5 6) 7 8 ∧
    ExtrapolatedCumSumOfRatio 1 2 ⟨3, 4⟩ ⟨5, 6⟩ =
      ExtrapolatedCumSumOfRatio 1 2 ⟨3, 4⟩ ⟨5, 6⟩ ∧
    ln 9 = ln 9 :=
  smoothing_deterministic _ _ _ _ _ _ _ _ _ _ _ _ _ _ _ _
    rfl rfl rfl rfl rfl rfl rfl rfl

end Smoothing
